import Mathlib

/-!
# Haystack — verification of the matching pipeline

Shallow embedding of the Haystack fuzzy-search module, translated from
`src/src/haystack.ts` (the current TypeScript source, from which the shipped
`dist/haystack` and the repository's test suite are built).  The legacy
root-level `Haystack.js` is consulted where the two differ.

Modelling conventions:
* a JavaScript string is a `List Char` (`JStr`);
* a JavaScript `undefined` result is `Option.none`;
* the in-place mutation `source[i] = …` performed by `searchArray` is made
  explicit: the function returns the final state of the array next to its
  result list — see `searchArray`;
* `console.error` is modelled as the `Option String` component of `searchTS`'s
  result (the caller's diagnostic channel).
-/

/-- JavaScript strings are modelled as lists of characters. -/
abbrev JStr := List Char

/-- `s.toLowerCase()`. -/
def lower (s : JStr) : JStr := s.map Char.toLower

/-- `s.trim()` — strip leading and trailing whitespace. -/
def trim (s : JStr) : JStr :=
  ((s.dropWhile Char.isWhitespace).reverse.dropWhile Char.isWhitespace).reverse

/-- `s.split(delim)` for a one-character delimiter, with JavaScript `split`
semantics: consecutive delimiters yield empty tokens, and the result is never
the empty list (`"".split(" ") == [""]`). -/
def splitOnChar (c : Char) : JStr → List JStr
  | [] => [[]]
  | x :: xs =>
    match splitOnChar c xs with
    | [] => []   -- unreachable: the result below is always nonempty
    | r :: rs => if x = c then [] :: r :: rs else (x :: r) :: rs

/-- `tokens.join(" ")`. -/
def joinSpace : List JStr → JStr
  | [] => []
  | [w] => w
  | w :: ws => w ++ ' ' :: joinSpace ws

/-- `jsMin3 a b c` — the `minimum(a, b, c)` helper of `levenshtein`,
translated clause for clause. -/
def jsMin3 (a b c : Nat) : Nat :=
  let m := if b < a then b else a
  if c < m then c else m

/-- JavaScript `==` between two `charAt` results, where an out-of-range
`charAt` yields the empty string: two in-range characters compare by value,
two out-of-range accesses compare equal (`'' == ''`), and an in-range
character never equals the empty string. -/
def jsCharEq : Option Char → Option Char → Bool
  | some x, some y => x = y
  | none, none => true
  | _, _ => false

/-- One row step of the `cost` table of `levenshtein`; `prev` is row `i`
(seen as a function of the column), and the result is row `i + 1`:
`cost[i+1][0] = i+1`, and `cost[i+1][j+1]` is `cost[i][j]` on a character
match and `1 + minimum(cost[i][j], cost[i+1][j], cost[i][j+1])` otherwise —
the exact recurrence of the source, in row-recursive form so that the
definition is structurally recursive. -/
def rowNext (eqAt : Nat → Nat → Bool) (i : Nat) (prev : Nat → Nat) : Nat → Nat
  | 0 => i + 1
  | j + 1 =>
    let here := rowNext eqAt i prev j
    if eqAt i j then prev j
    else 1 + jsMin3 (prev j) here (prev (j + 1))

/-- `costFun eqAt i j` is the entry `cost[i][j]` of the dynamic-programming
table: row `0` is `cost[0][j] = j`, and each later row is produced by
`rowNext`.  `eqAt i j` says whether position `i` of the first word matches
position `j` of the second. -/
def costFun (eqAt : Nat → Nat → Bool) : Nat → Nat → Nat
  | 0 => fun j => j
  | i + 1 => rowNext eqAt i (costFun eqAt i)

/-- `levenshtein(word1, word2)` of `src/src/haystack.ts` (lines 236–280),
translated faithfully, including its two slips:
* both table bounds are taken from the first word (`n = word1.length;
  m = word1.length`), so the table has size `(n+1) × (n+1)` and `word2` is
  read through `charAt`, which returns `''` beyond its end;
* if `n == 0` (and hence `m == 0`) the function hits `return;` and yields
  `undefined`, modelled as `none`. -/
def lev (word1 word2 : JStr) : Option Nat :=
  let n := word1.length
  let m := word1.length
  if n = 0 then none
  else if m = 0 then none
  else some (costFun (fun i j => jsCharEq (word1.get? i) (word2.get? j)) n m)

/-- Modelled from the spec (§4.1): the classic Levenshtein
dynamic-programming table of size `(|a|+1) × (|b|+1)` — `cost[i][0] = i`,
`cost[0][j] = j`, `cost[i][j] = cost[i-1][j-1]` on a character match and
`1 + min` of the three neighbours otherwise.  This is the comparison point
for the implementation's `lev`; characters match only when both indices are
in range and the characters are equal. -/
def levenshteinSpec (a b : JStr) : Nat :=
  costFun
    (fun i j =>
      match a.get? i, b.get? j with
      | some x, some y => x = y
      | _, _ => false)
    a.length b.length

/-! ## Options, query preparation -/

/-- The `IOptions` interface.  `flexibility` is kept as a `Nat` (the spec
calls for a non-negative integer). -/
structure Options where
  caseSensitive : Bool
  flexibility : Nat
  stemming : Bool
  exclusions : List JStr
  ignoreStopWords : Bool

/-- The default options built by the `Haystack` constructor. -/
def defaultOptions : Options :=
  { caseSensitive := false, flexibility := 2, stemming := false,
    exclusions := [], ignoreStopWords := false }

/-- The fixed stop-word list of `removeStopWords`. -/
def stopWords : List JStr :=
  [['t','h','e'], ['a'], ['t','o'], ['o','n'], ['i','n'], ['i','s'],
   ['o','f'], ['a','n','d']]

/-- `removeStopWords` of `src/src/haystack.ts` (lines 320–324):
`query.split(' ').filter((word) => !stopWords.includes(word)).join(' ')`.
Note that `includes` compares words exactly (case-sensitively). -/
def removeStopWords (query : JStr) : JStr :=
  joinSpace ((splitOnChar ' ' query).filter (fun w => !(stopWords.contains w)))

/-- Modelled from the spec (§4.3 step 1): stop-word removal with
case-insensitive comparison, so that e.g. `"The"` is also removed.  Used only
to compare against the implementation's `removeStopWords`. -/
def removeStopWordsSpecCI (query : JStr) : JStr :=
  joinSpace ((splitOnChar ' ' query).filter (fun w => !(stopWords.contains (lower w))))

/-- `query.replace(item, '')` for a plain-string `item`: remove the first
occurrence of `item` from `query` (JavaScript `String.replace` with a string
pattern replaces only the first occurrence). -/
def replaceFirst (pat : JStr) (s : JStr) : JStr :=
  if pat <+: s then s.drop pat.length
  else
    match s with
    | [] => []
    | c :: rest => c :: replaceFirst pat rest

/-- `prepareQuery(query, options)` of `src/src/haystack.ts` (lines 108–137).
The external `stemmer` package is not part of this repository, so the
stemming capability is passed in as a function argument `stem`, as the spec
allows (§6: a pluggable "reduce token to base form" capability). -/
def prepareQuery (op : Options) (stem : JStr → JStr) (query : JStr) : JStr :=
  let q1 := if op.ignoreStopWords then removeStopWords query else query
  let q2 := op.exclusions.foldl (fun q item => replaceFirst item q) q1
  let q3 := if op.caseSensitive then trim q2 else lower (trim q2)
  if op.stemming then joinSpace ((splitOnChar ' ' q3).map stem) else q3

/-! ## Matcher -/

/-- The "make sure value is a string" normalization applied to each leaf:
identity when case-sensitive, `toLowerCase` otherwise (leaves are already
strings in this model, so the `String(...)` coercion is the identity). -/
def normLeaf (caseSensitive : Bool) (s : JStr) : JStr :=
  if caseSensitive then s else lower s

/-- "Test if every token is found": every query token is a substring of the
leaf (`value.indexOf(token) !== -1`). -/
def allTokensFound (tokens : List JStr) (v : JStr) : Bool :=
  tokens.all (fun t => decide (t <:+: v))

/-- JavaScript `levenshtein(...) <= flexibility` where the left side may be
`undefined`: a comparison with `undefined` is always false. -/
def levLE : Option Nat → Nat → Bool
  | none, _ => false
  | some d, f => d ≤ f

/-- The fuzzy-pass acceptance test of `searchArray`/`searchObject`:
`options.flexibility > 0 && levenshtein(query.toLowerCase(),
value.toLowerCase()) <= options.flexibility`.  Both the query and the leaf
are lowercased here regardless of `options.caseSensitive`. -/
def fuzzyOK (q v : JStr) (op : Options) : Bool :=
  decide (0 < op.flexibility) && levLE (lev (lower q) (lower v)) op.flexibility

/-- `searchArray(source, query, tokens, options)` of `src/src/haystack.ts`
(lines 147–176).  The source line `source[i] = … String(source[i]) …`
mutates the caller's array, so the embedding returns a pair:
first the collected results, second the state of `source` after the call. -/
def searchArray (source : List JStr) (query : JStr) (tokens : List JStr)
    (op : Options) : List JStr × List JStr :=
  match source with
  | [] => ([], [])
  | s :: rest =>
    let v := normLeaf op.caseSensitive s
    let (rs, fin) := searchArray rest query tokens op
    (if allTokensFound tokens v then v :: rs
     else if fuzzyOK query v op then v :: rs
     else rs,
     v :: fin)

/-- A JavaScript value stored in an object pool: a string leaf or a nested
plain object (an ordered list of key/value fields). -/
inductive JValue where
  | leaf (v : JStr)
  | obj (fields : List (JStr × JValue))

mutual

/-- Body of the `for key in obj` loop of `searchObject`
(`src/src/haystack.ts` lines 187–228): a nested object recurses, a leaf is
normalized and pushed when the exact all-tokens pass or the fuzzy pass
accepts it.  `acc` is the `currentResults` accumulator. -/
def searchFields (query : JStr) (tokens : List JStr) (op : Options) :
    List (JStr × JValue) → List JStr → List JStr
  | [], acc => acc
  | (_, v) :: rest, acc =>
    searchFields query tokens op rest (searchValue query tokens op v acc)

/-- Processing of a single object value inside `searchObject`. -/
def searchValue (query : JStr) (tokens : List JStr) (op : Options) :
    JValue → List JStr → List JStr
  | .obj fields, acc => searchFields query tokens op fields acc
  | .leaf s, acc =>
    let v := normLeaf op.caseSensitive s
    if allTokensFound tokens v then acc ++ [v]
    else if fuzzyOK query v op then acc ++ [v]
    else acc

end

/-! ## Rank & dedupe -/

/-- JavaScript `a > b` on two `levenshtein` results, either of which may be
`undefined`: any comparison involving `undefined` is false. -/
def levGT : Option Nat → Option Nat → Bool
  | some a, some b => decide (b < a)
  | _, _ => false

/-- The swap condition of `sortResults`:
`results[i] && results[i+1] && levenshtein(query, results[i]) >
levenshtein(query, results[i+1])`.  The truthiness tests make the guard
false whenever either neighbour is the empty string. -/
def swapGuard (query x y : JStr) : Bool :=
  !x.isEmpty && !y.isEmpty && levGT (lev query x) (lev query y)

/-- Walk of one iteration of the inner `for` loop of `sortResults`, carrying
the element `x` currently at position `i`: compare it with its right
neighbour `y`, swap when `swapGuard` fires (so `x` keeps moving right,
exactly as the index-based loop does), otherwise continue from `y`. -/
def bubbleGo (query : JStr) (x : JStr) : List JStr → List JStr
  | [] => [x]
  | y :: rest =>
    if swapGuard query x y then y :: bubbleGo query x rest
    else x :: bubbleGo query y rest

/-- One full pass of the inner `for` loop of `sortResults` over the array. -/
def bubblePass (query : JStr) : List JStr → List JStr
  | [] => []
  | x :: xs => bubbleGo query x xs

/-- Number of out-of-order pairs with respect to `swapGuard`; each swap of
`bubblePass` removes exactly one, so this bounds the number of passes the
`do … while (swapped)` loop of `sortResults` can still perform. -/
def inversions (query : JStr) : List JStr → Nat
  | [] => 0
  | x :: xs => xs.countP (fun y => swapGuard query x y) + inversions query xs

/-- The `do { … } while (swapped)` loop of `sortResults`, with an explicit
fuel argument: run `bubblePass` until it makes no swap (a pass makes a swap
exactly when it changes the list).  `sortResults` supplies fuel
`inversions query l + 1`, which `sortLoopFuel_fix` below proves sufficient
to reach the loop's fixed point, so the fuelled loop computes the same
result as the unbounded source loop. -/
def sortLoopFuel (query : JStr) : Nat → List JStr → List JStr
  | 0, l => l
  | fuel + 1, l =>
    let l' := bubblePass query l
    if l' = l then l else sortLoopFuel query fuel l'

/-- `sortResults(results, query)` of `src/src/haystack.ts` (lines 283–297):
bubble-sort the array by `levenshtein(query, ·)` until no pass swaps. -/
def sortResults (query : JStr) (l : List JStr) : List JStr :=
  sortLoopFuel query (inversions query l + 1) l

/-- The numeric sort key of `sortResults`: the implementation's
`levenshtein(query, candidate)`, defaulting to `0` for an `undefined`
result (the default is only used when the query is empty, in which case the
guard never fires anyway). -/
def keyD (query x : JStr) : Nat := (lev query x).getD 0

/-- `createUniqueArray(arr)` of `src/src/haystack.ts` (lines 300–302):
`arr.filter((item, i) => arr.indexOf(item) === i)` — an element is kept
exactly when it does not occur earlier in the array, i.e. duplicates are
dropped keeping the first occurrence.  `seen` carries the elements of the
already-traversed prefix. -/
def cuAux (seen : List JStr) : List JStr → List JStr
  | [] => []
  | x :: xs => if x ∈ seen then cuAux seen xs else x :: cuAux (x :: seen) xs

/-- See `cuAux`. -/
def createUniqueArray (arr : List JStr) : List JStr := cuAux [] arr

/-- Reference formulation of first-occurrence deduplication: keep the head,
drop all its later duplicates, recurse.  Proved equal to
`createUniqueArray` below. -/
def keepFirst : List JStr → List JStr
  | [] => []
  | x :: xs => x :: keepFirst (xs.filter (fun y => y ≠ x))
termination_by l => l.length
decreasing_by
  exact Nat.lt_succ_of_le (List.length_filter_le _ _)

/-- The final pipeline stage of `Haystack.search`
(`src/src/haystack.ts` line 74):
`sortResults(createUniqueArray(searchResults), query).slice(0, limit)` —
the spec's `finalize` (§4.6). -/
def finalize (query : JStr) (found : List JStr) (limit : Nat) : List JStr :=
  (sortResults query (createUniqueArray found)).take limit

/-! ## The `search` entry point -/

/-- A value handed to `search` as the source pool.  `arr` elements and
object leaves are strings (the code coerces leaves with `String(...)`,
which is the identity on strings); the remaining constructors model the
unsupported source types named by the spec. -/
inductive SourceV where
  | arr (elems : List JStr)
  | obj (fields : List (JStr × JValue))
  | str (s : JStr)
  | num (n : Int)
  | boolV (b : Bool)
  | undef

/-- JavaScript truthiness of a source value: objects and arrays are truthy,
a string is truthy when nonempty, a number when nonzero, `undefined` never. -/
def truthy : SourceV → Bool
  | .arr _ => true
  | .obj _ => true
  | .str s => !s.isEmpty
  | .num n => n != 0
  | .boolV b => b
  | .undef => false

/-- `getDataType(source)` of `src/src/haystack.ts` (lines 305–317): a truthy
array, plain object or string is classified as `'array'`/`'object'`/
`'string'`; everything else yields `'undefined'`. -/
def getDataType (s : SourceV) : String :=
  if truthy s then
    match s with
    | .arr _ => "array"
    | .obj _ => "object"
    | .str _ => "string"
    | _ => "undefined"
  else "undefined"

/-- JavaScript `typeof source`, used in the `'Invalid source type: '`
message. -/
def typeofStr : SourceV → String
  | .arr _ => "object"
  | .obj _ => "object"
  | .str _ => "string"
  | .num _ => "number"
  | .boolV _ => "boolean"
  | .undef => "undefined"

/-- The query argument of `search`, which may fail `typeof query ===
'string'`. -/
inductive QueryInput where
  | qstr (s : JStr)
  | qother

/-- `typeof query !== 'string' || !query.trim().length`. -/
def isInvalidQuery : QueryInput → Bool
  | .qother => true
  | .qstr s => (trim s).isEmpty

/-- The underlying string of a string query (unreachable default for
non-strings, which `search` rejects first). -/
def queryStr : QueryInput → JStr
  | .qstr s => s
  | .qother => []

/-- The `searchResults` computed by the dispatch inside `Haystack.search`
(lines 66–71): `searchArray` for an array source, `searchObject` for an
object source, and the untouched empty array otherwise. -/
def searchResultsOf (op : Options) (qs : JStr) (tokens : List JStr) :
    SourceV → List JStr
  | .arr elems => (searchArray elems qs tokens op).1
  | .obj fields => searchFields qs tokens op fields []
  | _ => []

/-- `Haystack.search(query, source, limit)` of `src/src/haystack.ts`
(lines 47–79).  The first component is the returned array; the second is
the message written to `console.error`, if any (the diagnostic channel).
Validation happens first: a non-string or blank query, then a source whose
`getDataType` is neither `'array'` nor `'object'`, each return the empty
result with an error message.  Otherwise the query is prepared and
tokenized, the matcher dispatched, and a nonempty match list is deduped,
sorted and truncated to `limit`. -/
def searchTS (op : Options) (stem : JStr → JStr) (query : QueryInput)
    (source : SourceV) (limit : Nat) : List JStr × Option String :=
  if isInvalidQuery query then ([], some "Invalid search query")
  else if getDataType source ≠ "array" ∧ getDataType source ≠ "object" then
    ([], some ("Invalid source type: " ++ typeofStr source))
  else
    let qs := prepareQuery op stem (queryStr query)
    let tokens := splitOnChar ' ' qs
    let sr := searchResultsOf op qs tokens source
    if 0 < sr.length then (finalize qs sr limit, none) else ([], none)

/-- The state of the `source` argument after `search` returns: `searchArray`
assigns `source[i] = …` in place, so an array pool comes back with every
element normalized; other pools are left as they were (the object walker
only reads, and invalid inputs never reach the matcher). -/
def sourceAfterSearch (op : Options) (stem : JStr → JStr)
    (query : QueryInput) (source : SourceV) : SourceV :=
  if isInvalidQuery query then source
  else if getDataType source ≠ "array" ∧ getDataType source ≠ "object" then source
  else
    match source with
    | .arr elems =>
      let qs := prepareQuery op stem (queryStr query)
      let tokens := splitOnChar ' ' qs
      .arr (searchArray elems qs tokens op).2
    | other => other

/-- The elements of an array source (used to state mutation facts without
needing decidable equality on `SourceV`). -/
def arrElems : SourceV → List JStr
  | .arr elems => elems
  | _ => []

/-! ## Helper lemmas -/

theorem splitOnChar_ne_nil (c : Char) (s : JStr) : splitOnChar c s ≠ [] := by
  induction s with
  | nil => simp [splitOnChar]
  | cons x xs ih =>
    unfold splitOnChar
    cases h : splitOnChar c xs with
    | nil => exact absurd h ih
    | cons r rs =>
      by_cases hx : x = c <;> simp [hx]

theorem splitOnChar_no_delim (c : Char) (w : JStr) (h : c ∉ w) :
    splitOnChar c w = [w] := by
  induction w with
  | nil => rfl
  | cons x xs ih =>
    have hx : ¬ x = c := fun hxc => h (hxc ▸ List.mem_cons_self x xs)
    have hxs : c ∉ xs := fun hc => h (List.mem_cons_of_mem x hc)
    unfold splitOnChar
    rw [ih hxs]
    simp [hx]

theorem splitOnChar_append (c : Char) (w t : JStr) (h : c ∉ w) :
    splitOnChar c (w ++ c :: t) = w :: splitOnChar c t := by
  induction w with
  | nil =>
    cases ht : splitOnChar c t with
    | nil => exact absurd ht (splitOnChar_ne_nil c t)
    | cons r rs => simp [splitOnChar, ht]
  | cons x xs ih =>
    have hx : ¬ x = c := fun hxc => h (hxc ▸ List.mem_cons_self x xs)
    have hxs : c ∉ xs := fun hc => h (List.mem_cons_of_mem x hc)
    show splitOnChar c (x :: (xs ++ c :: t)) = (x :: xs) :: splitOnChar c t
    rw [splitOnChar, ih hxs]
    simp [hx]

theorem split_joinSpace (ws : List JStr) (hne : ws ≠ [])
    (hsp : ∀ w ∈ ws, ' ' ∉ w) :
    splitOnChar ' ' (joinSpace ws) = ws := by
  induction ws with
  | nil => exact absurd rfl hne
  | cons w ws ih =>
    cases ws with
    | nil =>
      simpa [joinSpace] using
        splitOnChar_no_delim ' ' w (hsp w (List.mem_cons_self w []))
    | cons w' rest =>
      have hw : ' ' ∉ w := hsp w (List.mem_cons_self _ _)
      have hrest : ∀ u ∈ w' :: rest, ' ' ∉ u := fun u hu =>
        hsp u (List.mem_cons_of_mem w hu)
      have hjoin : joinSpace (w :: w' :: rest) = w ++ ' ' :: joinSpace (w' :: rest) := rfl
      rw [hjoin, splitOnChar_append ' ' w _ hw, ih (by simp) hrest]

theorem lev_isSome (q x : JStr) (h : q ≠ []) : ∃ d, lev q x = some d := by
  unfold lev
  have : q.length ≠ 0 := fun h0 => h (List.length_eq_zero.mp h0)
  simp [this]

theorem searchArray_snd (elems : List JStr) (q : JStr) (tokens : List JStr)
    (op : Options) :
    (searchArray elems q tokens op).2 = elems.map (normLeaf op.caseSensitive) := by
  induction elems with
  | nil => rfl
  | cons s rest ih => simp [searchArray, ih]

theorem swapGuard_irrefl (q x : JStr) : swapGuard q x x = false := by
  unfold swapGuard levGT
  cases h : lev q x <;> simp

theorem swapGuard_asymm (q x y : JStr) (h : swapGuard q x y = true) :
    swapGuard q y x = false := by
  unfold swapGuard levGT at h ⊢
  cases hqx : lev q x <;> cases hqy : lev q y <;> simp_all
  omega

theorem bubbleGo_perm (q : JStr) (l : List JStr) :
    ∀ x : JStr, List.Perm (bubbleGo q x l) (x :: l) := by
  induction l with
  | nil => intro x; exact List.Perm.refl _
  | cons y rest ih =>
    intro x
    rw [bubbleGo]
    by_cases h : swapGuard q x y = true
    · rw [if_pos h]
      exact ((ih x).cons y).trans (List.Perm.swap x y rest)
    · rw [if_neg h]
      exact (ih y).cons x

theorem bubblePass_perm (q : JStr) (l : List JStr) :
    List.Perm (bubblePass q l) l := by
  cases l with
  | nil => exact List.Perm.refl _
  | cons x xs => exact bubbleGo_perm q xs x

theorem bubbleGo_filter (q : JStr) (P : JStr → Bool)
    (hP : ∀ a b, swapGuard q a b = true → P a = true → P b = true → False)
    (l : List JStr) :
    ∀ x : JStr, (bubbleGo q x l).filter P = ((x :: l).filter P : List JStr) := by
  induction l with
  | nil => intro x; rfl
  | cons y rest ih =>
    intro x
    rw [bubbleGo]
    by_cases h : swapGuard q x y = true
    · rw [if_pos h]
      by_cases hy : P y = true
      · have hx : P x = false := by
          cases hxv : P x
          · rfl
          · exact absurd (hP x y h hxv hy) not_false
        simp [List.filter_cons, hy, hx, ih x]
      · have hy' : P y = false := by
          cases hyv : P y
          · rfl
          · exact absurd hyv hy
        simp [List.filter_cons, hy', ih x]
    · rw [if_neg h]
      simp [List.filter_cons, ih y]

theorem bubblePass_filter (q : JStr) (P : JStr → Bool)
    (hP : ∀ a b, swapGuard q a b = true → P a = true → P b = true → False)
    (l : List JStr) : (bubblePass q l).filter P = l.filter P := by
  cases l with
  | nil => rfl
  | cons x xs => exact bubbleGo_filter q P hP xs x

theorem bubbleGo_measure (q : JStr) (l : List JStr) :
    ∀ x : JStr,
      bubbleGo q x l = x :: l ∨
        inversions q (bubbleGo q x l) < inversions q (x :: l) := by
  induction l with
  | nil => intro x; left; rfl
  | cons y rest ih =>
    intro x
    rw [bubbleGo]
    by_cases h : swapGuard q x y = true
    · right
      rw [if_pos h]
      have hcnt : (bubbleGo q x rest).countP (fun z => swapGuard q y z)
          = ((x :: rest).countP (fun z => swapGuard q y z) : Nat) :=
        (bubbleGo_perm q rest x).countP_eq _
      have hle : inversions q (bubbleGo q x rest) ≤ inversions q (x :: rest) := by
        rcases ih x with he | hlt
        · rw [he]
        · exact Nat.le_of_lt hlt
      have hyx : swapGuard q y x = false := swapGuard_asymm q x y h
      have e1 : inversions q (y :: bubbleGo q x rest)
          = (bubbleGo q x rest).countP (fun z => swapGuard q y z)
              + inversions q (bubbleGo q x rest) := by rw [inversions]
      have e2 : inversions q (x :: y :: rest)
          = (y :: rest).countP (fun z => swapGuard q x z)
              + (rest.countP (fun z => swapGuard q y z) + inversions q rest) := by
        rw [inversions, inversions]
      have e3 : (y :: rest).countP (fun z => swapGuard q x z)
          = rest.countP (fun z => swapGuard q x z) + 1 := by
        rw [List.countP_cons]; simp [h]
      have e4 : (x :: rest).countP (fun z => swapGuard q y z)
          = rest.countP (fun z => swapGuard q y z) := by
        rw [List.countP_cons]; simp [hyx]
      have e5 : inversions q (x :: rest)
          = rest.countP (fun z => swapGuard q x z) + inversions q rest := by
        rw [inversions]
      omega
    · rw [if_neg h]
      rcases ih y with he | hlt
      · left; rw [he]
      · right
        have hcnt : (bubbleGo q y rest).countP (fun z => swapGuard q x z)
            = ((y :: rest).countP (fun z => swapGuard q x z) : Nat) :=
          (bubbleGo_perm q rest y).countP_eq _
        have e1 : inversions q (x :: bubbleGo q y rest)
            = (bubbleGo q y rest).countP (fun z => swapGuard q x z)
                + inversions q (bubbleGo q y rest) := by rw [inversions]
        have e2 : inversions q (x :: y :: rest)
            = (y :: rest).countP (fun z => swapGuard q x z)
                + inversions q (y :: rest) := by rw [inversions]
        omega

theorem bubblePass_measure (q : JStr) (l : List JStr) :
    bubblePass q l = l ∨ inversions q (bubblePass q l) < inversions q l := by
  cases l with
  | nil => left; rfl
  | cons x xs => exact bubbleGo_measure q xs x

theorem sortLoopFuel_perm (q : JStr) (fuel : Nat) :
    ∀ l, List.Perm (sortLoopFuel q fuel l) l := by
  induction fuel with
  | zero => intro l; exact List.Perm.refl _
  | succ n ih =>
    intro l
    rw [sortLoopFuel]
    by_cases h : bubblePass q l = l
    · simp only [h, if_pos rfl]
      exact List.Perm.refl _
    · simp only [if_neg h]
      exact (ih _).trans (bubblePass_perm q l)

theorem sortLoopFuel_filter (q : JStr) (P : JStr → Bool)
    (hP : ∀ a b, swapGuard q a b = true → P a = true → P b = true → False)
    (fuel : Nat) :
    ∀ l, (sortLoopFuel q fuel l).filter P = l.filter P := by
  induction fuel with
  | zero => intro l; rfl
  | succ n ih =>
    intro l
    rw [sortLoopFuel]
    by_cases h : bubblePass q l = l
    · simp [h]
    · simp only [if_neg h]
      rw [ih _, bubblePass_filter q P hP l]

theorem sortLoopFuel_fix (q : JStr) (fuel : Nat) :
    ∀ l, inversions q l < fuel →
      bubblePass q (sortLoopFuel q fuel l) = sortLoopFuel q fuel l := by
  induction fuel with
  | zero => intro l h; omega
  | succ n ih =>
    intro l h
    rw [sortLoopFuel]
    by_cases hfix : bubblePass q l = l
    · simp [hfix]
    · simp only [if_neg hfix]
      apply ih
      rcases bubblePass_measure q l with he | hlt
      · exact absurd he hfix
      · omega

theorem sortResults_fix (q : JStr) (l : List JStr) :
    bubblePass q (sortResults q l) = sortResults q l :=
  sortLoopFuel_fix q (inversions q l + 1) l (Nat.lt_succ_self _)

theorem bubbleGo_fix_chain (q : JStr) (l : List JStr) :
    ∀ x : JStr, bubbleGo q x l = x :: l →
      List.Chain' (fun a b => swapGuard q a b = false) (x :: l) := by
  induction l with
  | nil => intro x _; simp
  | cons y rest ih =>
    intro x hfix
    rw [bubbleGo] at hfix
    by_cases h : swapGuard q x y = true
    · exfalso
      rw [if_pos h] at hfix
      injection hfix with h1 h2
      rw [h1, swapGuard_irrefl q x] at h
      simp at h
    · rw [if_neg h] at hfix
      injection hfix with h1 h2
      rw [List.chain'_cons]
      exact ⟨Bool.eq_false_iff.mpr h, ih y h2⟩

theorem bubblePass_fix_chain (q : JStr) (l : List JStr)
    (h : bubblePass q l = l) :
    List.Chain' (fun a b => swapGuard q a b = false) l := by
  cases l with
  | nil => simp
  | cons x xs => exact bubbleGo_fix_chain q xs x h

theorem chain_noswap_keyLE (q : JStr) (hq : q ≠ []) :
    ∀ l : List JStr, (∀ x ∈ l, x ≠ ([] : JStr)) →
      List.Chain' (fun a b => swapGuard q a b = false) l →
      List.Chain' (fun a b => keyD q a ≤ keyD q b) l := by
  intro l
  induction l with
  | nil => intro _ _; simp
  | cons x xs ih =>
    cases xs with
    | nil => intro _ _; simp
    | cons y rest =>
      intro hne hch
      rw [List.chain'_cons] at hch ⊢
      refine ⟨?_, ih (fun z hz => hne z (List.mem_cons_of_mem _ hz)) hch.2⟩
      have hx : x ≠ ([] : JStr) := hne x (List.mem_cons_self _ _)
      have hy : y ≠ ([] : JStr) :=
        hne y (List.mem_cons_of_mem _ (List.mem_cons_self _ _))
      obtain ⟨a, ha⟩ := lev_isSome q x hq
      obtain ⟨b, hb⟩ := lev_isSome q y hq
      have hg := hch.1
      unfold swapGuard levGT at hg
      rw [ha, hb] at hg
      have hxe : x.isEmpty = false := by
        cases x with
        | nil => exact absurd rfl hx
        | cons c cs => rfl
      have hye : y.isEmpty = false := by
        cases y with
        | nil => exact absurd rfl hy
        | cons c cs => rfl
      rw [hxe, hye] at hg
      simp at hg
      unfold keyD
      rw [ha, hb]
      simpa using hg

theorem sortResults_sorted (q : JStr) (l : List JStr) (hq : q ≠ [])
    (hne : ∀ x ∈ l, x ≠ ([] : JStr)) :
    List.Pairwise (fun a b => keyD q a ≤ keyD q b) (sortResults q l) := by
  have hperm := sortLoopFuel_perm q (inversions q l + 1) l
  have hne' : ∀ x ∈ sortResults q l, x ≠ ([] : JStr) := fun x hx =>
    hne x (hperm.mem_iff.mp hx)
  have hch := bubblePass_fix_chain q (sortResults q l) (sortResults_fix q l)
  have hkey := chain_noswap_keyLE q hq (sortResults q l) hne' hch
  haveI : IsTrans JStr (fun a b => keyD q a ≤ keyD q b) :=
    ⟨fun _ _ _ hab hbc => le_trans hab hbc⟩
  exact List.chain'_iff_pairwise.mp hkey

theorem cuAux_subset (x : JStr) :
    ∀ (l seen : List JStr), x ∈ cuAux seen l → x ∈ l ∧ x ∉ seen := by
  intro l
  induction l with
  | nil => intro seen h; simp [cuAux] at h
  | cons y xs ih =>
    intro seen h
    rw [cuAux] at h
    by_cases hy : y ∈ seen
    · rw [if_pos hy] at h
      rcases ih seen h with ⟨h1, h2⟩
      exact ⟨List.mem_cons_of_mem _ h1, h2⟩
    · rw [if_neg hy] at h
      rcases List.mem_cons.mp h with rfl | h'
      · exact ⟨List.mem_cons_self _ _, hy⟩
      · rcases ih _ h' with ⟨h1, h2⟩
        exact ⟨List.mem_cons_of_mem _ h1,
          fun hs => h2 (List.mem_cons_of_mem _ hs)⟩

theorem cuAux_nodup : ∀ (l seen : List JStr), (cuAux seen l).Nodup := by
  intro l
  induction l with
  | nil => intro seen; simp [cuAux]
  | cons y xs ih =>
    intro seen
    rw [cuAux]
    by_cases hy : y ∈ seen
    · simpa [hy] using ih seen
    · rw [if_neg hy]
      refine List.nodup_cons.mpr ⟨?_, ih _⟩
      intro hmem
      exact (cuAux_subset y xs (y :: seen) hmem).2 (List.mem_cons_self _ _)

theorem cuAux_mem_of (x : JStr) :
    ∀ (l seen : List JStr), x ∈ l → x ∉ seen → x ∈ cuAux seen l := by
  intro l
  induction l with
  | nil => intro seen h _; simp at h
  | cons y xs ih =>
    intro seen hmem hns
    rw [cuAux]
    by_cases hy : y ∈ seen
    · rw [if_pos hy]
      rcases List.mem_cons.mp hmem with rfl | h'
      · exact absurd hy hns
      · exact ih seen h' hns
    · rw [if_neg hy]
      rcases List.mem_cons.mp hmem with rfl | h'
      · exact List.mem_cons_self _ _
      · by_cases hxy : x = y
        · subst hxy; exact List.mem_cons_self _ _
        · refine List.mem_cons_of_mem _ (ih _ h' ?_)
          intro hc
          rcases List.mem_cons.mp hc with h1 | h1
          · exact hxy h1
          · exact hns h1

theorem createUniqueArray_nodup (l : List JStr) :
    (createUniqueArray l).Nodup := cuAux_nodup l []

theorem mem_createUniqueArray (l : List JStr) (x : JStr) :
    x ∈ createUniqueArray l ↔ x ∈ l := by
  constructor
  · intro h; exact (cuAux_subset x l [] h).1
  · intro h; exact cuAux_mem_of x l [] h (by simp)

theorem cuAux_eq_keepFirst :
    ∀ (n : Nat) (l : List JStr), l.length ≤ n → ∀ seen,
      cuAux seen l = keepFirst (l.filter (fun y => decide (y ∉ seen))) := by
  intro n
  induction n with
  | zero =>
    intro l hl seen
    rw [List.eq_nil_of_length_eq_zero (Nat.le_zero.mp hl)]
    simp [cuAux, keepFirst]
  | succ n ih =>
    intro l hl seen
    cases l with
    | nil => simp [cuAux, keepFirst]
    | cons x xs =>
      have hxs : xs.length ≤ n := by
        simp only [List.length_cons] at hl
        omega
      rw [cuAux]
      by_cases hx : x ∈ seen
      · rw [if_pos hx, ih xs hxs seen, List.filter_cons]
        simp [hx]
      · rw [if_neg hx, ih xs hxs (x :: seen), List.filter_cons]
        have hxd : decide (x ∉ seen) = true := by simp [hx]
        rw [hxd]
        simp only [if_pos trivial, if_true]
        rw [keepFirst]
        congr 1
        rw [List.filter_filter]
        congr 1
        apply List.filter_congr
        intro a _
        by_cases h1 : a = x <;> by_cases h2 : a ∈ seen <;> simp [h1, h2]

theorem createUniqueArray_eq_keepFirst (l : List JStr) :
    createUniqueArray l = keepFirst l := by
  have := cuAux_eq_keepFirst l.length l le_rfl []
  simpa [createUniqueArray] using this

theorem swapGuard_key_ne (q a b : JStr) (h : swapGuard q a b = true) :
    lev q a ≠ lev q b := by
  unfold swapGuard levGT at h
  cases ha : lev q a <;> cases hb : lev q b <;> simp_all
  omega

/-! ## Claims -/

/-- C1.  The claim: `distance(a, b)` is the classic Levenshtein distance,
computed over a dynamic-programming table of size `(|a|+1) × (|b|+1)`.
The code instead sizes both table dimensions from the first argument
(`n = word1.length; m = word1.length` at `src/src/haystack.ts` lines
239–240), so already at `a = "a"`, `b = "ab"` it returns `0`, while the
classic recurrence of the claim gives `1`. -/
theorem levenshtein_table_bug :
    lev ['a'] ['a', 'b'] = some 0 ∧ levenshteinSpec ['a'] ['a', 'b'] = 1 := by
  decide

/-- C2.  The claim: `distance("", s) = |s|` — a number, never an absent
value — including `distance("", "") = 0`.  The code instead executes a bare
`return;` whenever the first word is empty (lines 253–258), producing
`undefined`, while the spec's recurrence yields the other string's length. -/
theorem levenshtein_empty_bug :
    lev [] ['x'] = none ∧ lev [] [] = none ∧
      levenshteinSpec [] ['x'] = 1 ∧ levenshteinSpec [] [] = 0 := by
  decide

/-- C3.  The claim: `distance(a, b) = distance(b, a)` for all strings.
The mis-sized table (see C1) breaks symmetry: the code's
`distance("a", "ab")` is `0` but its `distance("ab", "a")` is `1`. -/
theorem levenshtein_symmetry_bug :
    lev ['a'] ['a', 'b'] = some 0 ∧ lev ['a', 'b'] ['a'] = some 1 := by
  decide

/-- C5.  The claim: a `Scalar` source (a single string) is tokenized with
the default delimiter and each token searched as a leaf, while unsupported
source types (numbers, booleans, absent value) produce a reported error.
In `src/src/haystack.ts` (lines 54–56) a string source falls into the same
rejection branch as the genuinely unsupported types: `search` returns the
empty result and reports `Invalid source type: string`, never tokenizing —
contradicting the README ("as an array, object, or string") and the legacy
`Haystack.js`, which tokenizes string sources before searching.  The second
conjunct confirms the half of the claim the code does honour: an
unsupported number is a reported error, not a silent empty result. -/
theorem scalar_source_rejected :
    searchTS defaultOptions (fun t => t) (.qstr "jan".data)
        (.str "January February March".data) 1
      = ([], some "Invalid source type: string")
  ∧ searchTS defaultOptions (fun t => t) (.qstr "jan".data) (.num 5) 1
      = ([], some "Invalid source type: number") := by
  constructor <;> rfl

/-- C6.  For every array pool, query, token list and options: a leaf whose
normalized form contains every query token as a substring is always in the
matcher's output, whatever `flexibility` is (first conjunct); and with
`flexibility = 0` the fuzzy pass is skipped entirely, so the output is
exactly the normalized leaves that contain all tokens — every other
candidate is excluded (second conjunct). -/
theorem exact_match_always_included (elems : List JStr) (q : JStr)
    (tokens : List JStr) (op : Options) :
    (∀ s ∈ elems, allTokensFound tokens (normLeaf op.caseSensitive s) = true →
        normLeaf op.caseSensitive s ∈ (searchArray elems q tokens op).1)
  ∧ (op.flexibility = 0 →
      (searchArray elems q tokens op).1
        = (elems.map (normLeaf op.caseSensitive)).filter (allTokensFound tokens)) := by
  induction elems with
  | nil => exact ⟨fun s hs => absurd hs (List.not_mem_nil s), fun _ => rfl⟩
  | cons t rest ih =>
    constructor
    · intro s hs hall
      rcases List.mem_cons.mp hs with rfl | hs'
      · simp [searchArray, hall]
      · have hmem := ih.1 s hs' hall
        by_cases h1 : allTokensFound tokens (normLeaf op.caseSensitive t) = true
        · simp [searchArray, h1, hmem]
        · by_cases h2 : fuzzyOK q (normLeaf op.caseSensitive t) op = true
          · simp [searchArray, h1, h2, hmem]
          · simp [searchArray, h1, h2, hmem]
    · intro hflex
      have hf : fuzzyOK q (normLeaf op.caseSensitive t) op = false := by
        unfold fuzzyOK
        rw [hflex]
        simp
      by_cases h1 : allTokensFound tokens (normLeaf op.caseSensitive t) = true
      · simp [searchArray, h1, ih.2 hflex, List.filter_cons]
      · simp [searchArray, h1, hf, ih.2 hflex, List.filter_cons]

/-- C10.  The fuzzy pass lowercases both the canonical query and the leaf
before computing the distance, even when `caseSensitive` is true.  First
conjunct: fuzzy acceptance is therefore invariant under any change of
letter case in the query or the leaf and does not depend on
`caseSensitive` at all (only `flexibility` matters).  Second conjunct: in a
case-sensitive search, a leaf that fails the exact all-tokens pass is
matched exactly when this case-blind fuzzy test accepts it, so only the
exact pass is affected by the `caseSensitive` option. -/
theorem fuzzy_pass_case_invariant (q q' v v' : JStr) (o o' : Options)
    (tokens : List JStr) (hf : o.flexibility = o'.flexibility)
    (hq : lower q = lower q') (hv : lower v = lower v') :
    fuzzyOK q v o = fuzzyOK q' v' o'
  ∧ (allTokensFound tokens v = false →
      (searchArray [v] q tokens { o with caseSensitive := true }).1
        = if fuzzyOK q v o = true then [v] else []) := by
  constructor
  · unfold fuzzyOK
    rw [hf, hq, hv]
  · intro hall
    have hnorm : normLeaf true v = v := rfl
    have hfx : fuzzyOK q v { o with caseSensitive := true } = fuzzyOK q v o := by
      unfold fuzzyOK
      rfl
    simp [searchArray, normLeaf, hall, hfx]

/-- C8 (amended).  `removeStopWords` splits the query on single spaces,
removes exactly the tokens that are equal — by exact, case-sensitive
comparison — to one of the eight stop words, and rejoins the survivors with
single spaces: on any nonempty list of space-free words it acts as a filter
against the `stopWords` list. -/
theorem removeStopWords_join_filter (ws : List JStr) (hne : ws ≠ [])
    (hsp : ∀ w ∈ ws, ' ' ∉ w) :
    removeStopWords (joinSpace ws)
      = joinSpace (ws.filter (fun w => !(stopWords.contains w))) := by
  unfold removeStopWords
  rw [split_joinSpace ws hne hsp]

/-- C8 (counterexample).  The claim says stop words are removed by
case-insensitive comparison, so `"The"` would be removed; the code's exact
`includes` test keeps `"The cat"` unchanged, while the claim's
case-insensitive removal (`removeStopWordsSpecCI`) yields `"cat"`. -/
theorem removeStopWords_case_counterexample :
    removeStopWords "The cat".data ≠ removeStopWordsSpecCI "The cat".data
  ∧ removeStopWords "The cat".data = "The cat".data
  ∧ removeStopWordsSpecCI "The cat".data = "cat".data := by
  decide

/-- C8 witness: the amended theorem applied at the concrete query
`"the cat"`, whose lowercase stop word is removed. -/
theorem removeStopWords_join_filter_witness :
    removeStopWords (joinSpace ["the".data, "cat".data])
      = joinSpace (["the".data, "cat".data].filter
          (fun w => !(stopWords.contains w))) :=
  removeStopWords_join_filter ["the".data, "cat".data] (by decide) (by decide)

/-- C9 (amended).  A `search` invocation leaves a mapping pool untouched,
but it does not operate on a private copy of an array pool: `searchArray`
assigns each element back into the caller's array, so after a valid search
the caller's array holds the normalized (case-folded) elements instead of
the originals. -/
theorem search_pool_mutation (op : Options) (stem : JStr → JStr) (q : JStr)
    (elems : List JStr) (fields : List (JStr × JValue))
    (hq : isInvalidQuery (.qstr q) = false) :
    arrElems (sourceAfterSearch op stem (.qstr q) (.arr elems))
        = elems.map (normLeaf op.caseSensitive)
  ∧ sourceAfterSearch op stem (.qstr q) (.obj fields) = .obj fields := by
  constructor
  · unfold sourceAfterSearch
    simp [hq, getDataType, truthy, searchArray_snd, arrElems]
  · unfold sourceAfterSearch
    simp [hq, getDataType, truthy]

/-- C9 (counterexample).  The claim says the caller's pool is unchanged
after `search` returns; searching `["JAN"]` for `"jan"` with the default
(case-insensitive) options leaves the pool as `["jan"]`, not `["JAN"]`. -/
theorem search_pool_mutation_counterexample :
    arrElems (sourceAfterSearch defaultOptions (fun t => t)
        (.qstr "jan".data) (.arr ["JAN".data])) ≠ ["JAN".data] := by
  decide

/-- C9 witness: the amended theorem applied to the pool `["JAN"]` with the
default options and query `"jan"`. -/
theorem search_pool_mutation_witness :
    arrElems (sourceAfterSearch defaultOptions (fun t => t)
        (.qstr "jan".data) (.arr ["JAN".data]))
      = ["JAN".data].map (normLeaf defaultOptions.caseSensitive) :=
  (search_pool_mutation defaultOptions (fun t => t) "jan".data
    ["JAN".data] [] (by decide)).1

/-- C10 witness: the invariance applied at concrete inputs — a
case-sensitive search (`o`) and a case-insensitive one (`o'`) with query
case flipped give the same fuzzy verdict. -/
theorem fuzzy_pass_case_invariant_witness :
    fuzzyOK "May".data "Maz".data
        { defaultOptions with caseSensitive := true }
      = fuzzyOK "may".data "maz".data defaultOptions :=
  (fuzzy_pass_case_invariant "May".data "may".data "Maz".data "maz".data
    { defaultOptions with caseSensitive := true } defaultOptions
    ["May".data] rfl (by decide) (by decide)).1

/-- C4.  Error handling of `search`: (1) a non-string or blank query yields
the empty result plus the `Invalid search query` diagnostic; (2) a valid
query against a source that is neither an array nor an object yields the
empty result plus a descriptive `Invalid source type` diagnostic; (3) on
valid inputs the diagnostic channel is never used — and if the matcher
finds nothing, the result is the empty sequence (never null, never an
error). -/
theorem search_error_contract (op : Options) (stem : JStr → JStr)
    (query : QueryInput) (source : SourceV) (limit : Nat) :
    (isInvalidQuery query = true →
        searchTS op stem query source limit
          = ([], some "Invalid search query"))
  ∧ (isInvalidQuery query = false →
      getDataType source ≠ "array" → getDataType source ≠ "object" →
        searchTS op stem query source limit
          = ([], some ("Invalid source type: " ++ typeofStr source)))
  ∧ (isInvalidQuery query = false →
      (getDataType source = "array" ∨ getDataType source = "object") →
        (searchTS op stem query source limit).2 = none
      ∧ (searchResultsOf op (prepareQuery op stem (queryStr query))
            (splitOnChar ' ' (prepareQuery op stem (queryStr query)))
            source = [] →
          (searchTS op stem query source limit).1 = [])) := by
  refine ⟨?_, ?_, ?_⟩
  · intro h
    unfold searchTS
    simp [h]
  · intro h h1 h2
    unfold searchTS
    simp [h, h1, h2]
  · intro h hval
    have hcond : ¬ (getDataType source ≠ "array" ∧ getDataType source ≠ "object") := by
      rcases hval with h1 | h1 <;> simp [h1]
    unfold searchTS
    simp only [h, Bool.false_eq_true, if_false, hcond, ite_false]
    constructor
    · by_cases hsr : 0 < (searchResultsOf op
          (prepareQuery op stem (queryStr query))
          (splitOnChar ' ' (prepareQuery op stem (queryStr query)))
          source).length <;>
        simp [hsr]
    · intro hempty
      simp [hempty]

/-- C4 witness: the contract applied at three concrete inputs — a blank
query, a numeric source, and a valid search with no match. -/
theorem search_error_contract_witness :
    searchTS defaultOptions (fun t => t) (.qstr "".data)
        (.arr ["one".data, "two".data]) 1
      = ([], some "Invalid search query")
  ∧ searchTS defaultOptions (fun t => t) (.qstr "January".data) (.num 5) 1
      = ([], some ("Invalid source type: " ++ typeofStr (.num 5)))
  ∧ (searchTS defaultOptions (fun t => t) (.qstr "zzz".data)
        (.arr ["a".data]) 1).1 = [] :=
  ⟨(search_error_contract defaultOptions (fun t => t) (.qstr "".data)
      (.arr ["one".data, "two".data]) 1).1 (by decide),
   (search_error_contract defaultOptions (fun t => t) (.qstr "January".data)
      (.num 5) 1).2.1 (by decide) (by decide) (by decide),
   ((search_error_contract defaultOptions (fun t => t) (.qstr "zzz".data)
      (.arr ["a".data]) 1).2.2 (by decide) (Or.inl (by decide))).2 (by decide)⟩

/-- C7 (amended).  `finalize` (dedupe, bubble-sort by the implementation's
distance, truncate) returns a list with no duplicates and at most `limit`
entries; deduplication keeps the first occurrence (`createUniqueArray`
equals the reference `keepFirst`); the sort never reorders entries whose
sort keys are equal, so ties keep their pre-sort relative order (the
filter by any key value is unchanged); and — provided the canonical query
and all matched strings are nonempty — the output is sorted ascending by
the implementation's distance to the query. -/
theorem finalize_contract (found : List JStr) (q : JStr) (limit : Nat)
    (_hlim : 1 ≤ limit) :
    (finalize q found limit).Nodup
  ∧ (finalize q found limit).length ≤ limit
  ∧ createUniqueArray found = keepFirst found
  ∧ (∀ c : Option Nat,
      (sortResults q (createUniqueArray found)).filter
          (fun x => decide (lev q x = c))
        = (createUniqueArray found).filter (fun x => decide (lev q x = c)))
  ∧ (q ≠ [] → (∀ x ∈ found, x ≠ ([] : JStr)) →
      (finalize q found limit).Pairwise (fun a b => keyD q a ≤ keyD q b)) := by
  have hperm : List.Perm (sortResults q (createUniqueArray found))
      (createUniqueArray found) :=
    sortLoopFuel_perm q (inversions q (createUniqueArray found) + 1)
      (createUniqueArray found)
  refine ⟨?_, ?_, createUniqueArray_eq_keepFirst found, ?_, ?_⟩
  · have h1 : (sortResults q (createUniqueArray found)).Nodup :=
      (hperm.nodup_iff).mpr (createUniqueArray_nodup found)
    exact List.Nodup.sublist (List.take_sublist _ _) h1
  · unfold finalize
    rw [List.length_take]
    exact min_le_left _ _
  · intro c
    apply sortLoopFuel_filter
    intro a b hg hpa hpb
    exact swapGuard_key_ne q a b hg
      ((of_decide_eq_true hpa).trans (of_decide_eq_true hpb).symm)
  · intro hq hne
    have hsorted := sortResults_sorted q (createUniqueArray found) hq
      (fun x hx => hne x ((mem_createUniqueArray found x).mp hx))
    exact List.Pairwise.sublist (List.take_sublist _ _) hsorted

/-- C7 (counterexample).  The claim promises output sorted ascending by
distance to the query for every multiset of matched strings.  The bubble
sort's truthiness guard never moves an empty-string entry, so
`finalize("ab", ["", "ab"], 2)` returns `["", "ab"]` — whose keys descend
(distance 2 before distance 0), both by the implementation's distance and
by the classic edit distance. -/
theorem finalize_sort_counterexample :
    finalize "ab".data [[], "ab".data] 2 = [([] : JStr), "ab".data]
  ∧ ¬ (finalize "ab".data [[], "ab".data] 2).Pairwise
        (fun a b => keyD "ab".data a ≤ keyD "ab".data b)
  ∧ ¬ (finalize "ab".data [[], "ab".data] 2).Pairwise
        (fun a b => levenshteinSpec "ab".data a ≤ levenshteinSpec "ab".data b) := by
  decide

/-- C7 witness: the amended contract applied at query `"jun"`, matches
`["july", "june"]`, limit `2`; the sortedness conjunct's hypotheses hold
and the sorted output is produced. -/
theorem finalize_contract_witness :
    (finalize "jun".data ["july".data, "june".data] 2).Pairwise
      (fun a b => keyD "jun".data a ≤ keyD "jun".data b) :=
  (finalize_contract ["july".data, "june".data] "jun".data 2
    (by decide)).2.2.2.2 (by decide) (by decide)

/-- C6 witness: with `flexibility = 0`, searching `["June", "July"]` for
`"jun"` keeps exactly the leaf that contains the token. -/
theorem exact_match_always_included_witness :
    (searchArray ["June".data, "July".data] "jun".data ["jun".data]
        { defaultOptions with flexibility := 0 }).1
      = (["June".data, "July".data].map
          (normLeaf ({ defaultOptions with flexibility := 0 }).caseSensitive)).filter
          (allTokensFound ["jun".data]) :=
  (exact_match_always_included ["June".data, "July".data] "jun".data
    ["jun".data] { defaultOptions with flexibility := 0 }).2 rfl
